import Mathlib

/-!
Shallow embedding of the indexing / retrieval core of the structural
code-knowledge engine: vector math, the AST chunker, the file registry,
the dependency graph, the indexer orchestration and the retriever,
together with theorems checking the specified properties against this
embedding of the source.
-/

namespace Agent

/-! ## Vector math (cosineSimilarity) -/

/-- Sum of squares of the entries of a vector: the value accumulated in
the loop of cosineSimilarity as normA / normB (the squared norm). -/
def sumSquares : List ℚ → ℚ
  | [] => 0
  | a :: as => a * a + sumSquares as

/-- Dot product accumulated in the loop of cosineSimilarity.  The source
only evaluates it after the equal-length check. -/
def dotProduct : List ℚ → List ℚ → ℚ
  | a :: as, b :: bs => a * b + dotProduct as bs
  | _, _ => 0

/-- cosineSimilarity from the vector-math module: on a dimensionality
mismatch the source throws (modelled as none); when either accumulated
squared norm is zero it returns 0; otherwise it returns
dot / (sqrt normA * sqrt normB).  Float arithmetic is modelled over the
rationals, with the exact real square root for the final expression. -/
noncomputable def cosineSimilarity (vecA vecB : List ℚ) : Option ℝ :=
  if vecA.length ≠ vecB.length then none
  else if sumSquares vecA = 0 ∨ sumSquares vecB = 0 then some 0
  else some ((dotProduct vecA vecB : ℝ) /
    (Real.sqrt (sumSquares vecA) * Real.sqrt (sumSquares vecB)))

theorem sumSquares_nonneg (v : List ℚ) : 0 ≤ sumSquares v := by
  induction v with
  | nil => simp [sumSquares]
  | cons a as ih => simp only [sumSquares]; nlinarith [mul_self_nonneg a]

theorem dotProduct_self (v : List ℚ) : dotProduct v v = sumSquares v := by
  induction v with
  | nil => rfl
  | cons a as ih => simp [dotProduct, sumSquares, ih]

/-- Cauchy-Schwarz for the list-level dot product and squared norms. -/
theorem dotProduct_sq_le (a b : List ℚ) :
    dotProduct a b ^ 2 ≤ sumSquares a * sumSquares b := by
  induction a generalizing b with
  | nil =>
    cases b <;> simp [dotProduct, sumSquares]
  | cons x xs ih =>
    cases b with
    | nil => simp [dotProduct, sumSquares]
    | cons y ys =>
      have h := ih ys
      have hA := sumSquares_nonneg xs
      have hB := sumSquares_nonneg ys
      simp only [dotProduct, sumSquares]
      rcases eq_or_lt_of_le hB with hB0 | hBpos
      · have hd : dotProduct xs ys = 0 := by
          nlinarith [sq_nonneg (dotProduct xs ys)]
        rw [hd, ← hB0]
        nlinarith [mul_nonneg hA (sq_nonneg y)]
      · nlinarith [sq_nonneg (x * sumSquares ys - y * dotProduct xs ys),
          mul_nonneg (sub_nonneg.mpr h)
            (add_nonneg (sq_nonneg y) hB)]

/-- C7: cosineSimilarity raises exactly on a length mismatch; with equal
lengths and either squared norm zero (equivalently, a zero-norm vector)
it returns 0. -/
theorem cosineSimilarity_error_iff (a b : List ℚ) :
    (cosineSimilarity a b = none ↔ a.length ≠ b.length) ∧
    (a.length = b.length → sumSquares a = 0 ∨ sumSquares b = 0 →
      cosineSimilarity a b = some 0) := by
  constructor
  · unfold cosineSimilarity
    by_cases hlen : a.length ≠ b.length
    · simp [hlen]
    · by_cases hz : sumSquares a = 0 ∨ sumSquares b = 0 <;> simp [hlen, hz]
  · intro hlen hz
    unfold cosineSimilarity
    simp [hlen, hz]

/-- Witness for C7 at concrete inputs: a length mismatch raises, and a
zero-norm first vector yields score 0. -/
theorem cosineSimilarity_error_iff_witness :
    cosineSimilarity [(1 : ℚ)] [] = none ∧
    cosineSimilarity [(0 : ℚ), 0] [3, 4] = some 0 :=
  ⟨(cosineSimilarity_error_iff [(1 : ℚ)] []).1.mpr (by decide),
   (cosineSimilarity_error_iff [(0 : ℚ), 0] [3, 4]).2 (by decide)
     (Or.inl (by norm_num [sumSquares]))⟩

/-- C8 (amended): with equal lengths every score lies in [-1, 1]; a
vector of nonzero squared norm scores 1 against itself; vectors with a
zero dot product score 0. -/
theorem cosineSimilarity_bounds (a b : List ℚ) (hlen : a.length = b.length) :
    (∀ s : ℝ, cosineSimilarity a b = some s → -1 ≤ s ∧ s ≤ 1) ∧
    (sumSquares a ≠ 0 → cosineSimilarity a a = some 1) ∧
    (dotProduct a b = 0 → cosineSimilarity a b = some 0) := by
  refine ⟨?_, ?_, ?_⟩
  · intro s hs
    unfold cosineSimilarity at hs
    rw [if_neg (by simp [hlen])] at hs
    by_cases hz : sumSquares a = 0 ∨ sumSquares b = 0
    · rw [if_pos hz] at hs
      have : s = 0 := by simpa using hs.symm
      constructor <;> simp [this]
    · rw [if_neg hz] at hs
      push_neg at hz
      have hA : (0 : ℚ) < sumSquares a :=
        lt_of_le_of_ne (sumSquares_nonneg a) (Ne.symm hz.1)
      have hB : (0 : ℚ) < sumSquares b :=
        lt_of_le_of_ne (sumSquares_nonneg b) (Ne.symm hz.2)
      have hAr : (0 : ℝ) < (sumSquares a : ℝ) := by exact_mod_cast hA
      have hBr : (0 : ℝ) < (sumSquares b : ℝ) := by exact_mod_cast hB
      have hden : (0 : ℝ) < Real.sqrt (sumSquares a) * Real.sqrt (sumSquares b) :=
        mul_pos (Real.sqrt_pos.mpr hAr) (Real.sqrt_pos.mpr hBr)
      have hcs : ((dotProduct a b : ℝ)) ^ 2 ≤ (sumSquares a : ℝ) * (sumSquares b : ℝ) := by
        exact_mod_cast dotProduct_sq_le a b
      have habs : |(dotProduct a b : ℝ)| ≤
          Real.sqrt (sumSquares a) * Real.sqrt (sumSquares b) := by
        rw [← Real.sqrt_mul (le_of_lt hAr)]
        calc |(dotProduct a b : ℝ)| = Real.sqrt (((dotProduct a b : ℝ)) ^ 2) :=
              (Real.sqrt_sq_eq_abs _).symm
          _ ≤ Real.sqrt ((sumSquares a : ℝ) * (sumSquares b : ℝ)) :=
              Real.sqrt_le_sqrt hcs
      have hval : s = (dotProduct a b : ℝ) /
          (Real.sqrt (sumSquares a) * Real.sqrt (sumSquares b)) := by
        simpa using hs.symm
      have : |s| ≤ 1 := by
        rw [hval, abs_div, abs_of_pos hden]
        exact (div_le_one hden).mpr habs
      exact abs_le.mp this
  · intro hz
    unfold cosineSimilarity
    rw [if_neg (by simp)]
    rw [if_neg (by simpa using hz)]
    have hA : (0 : ℚ) < sumSquares a :=
      lt_of_le_of_ne (sumSquares_nonneg a) (Ne.symm hz)
    have hAr : (0 : ℝ) < (sumSquares a : ℝ) := by exact_mod_cast hA
    rw [dotProduct_self]
    rw [Real.mul_self_sqrt (le_of_lt hAr)]
    rw [div_self (ne_of_gt hAr)]
  · intro hd
    unfold cosineSimilarity
    rw [if_neg (by simp [hlen])]
    by_cases hz : sumSquares a = 0 ∨ sumSquares b = 0
    · rw [if_pos hz]
    · rw [if_neg hz, hd]
      norm_num

/-- Counterexample to C8 as stated: the zero vector compared with itself
scores 0, not 1 (the zero-norm guard fires before the division). -/
theorem cosineSimilarity_self_zero_counterexample :
    cosineSimilarity [(0 : ℚ)] [(0 : ℚ)] = some 0 ∧ ((0 : ℝ) ≠ 1) := by
  constructor
  · unfold cosineSimilarity
    rw [if_neg (by simp)]
    rw [if_pos (by left; norm_num [sumSquares])]
  · norm_num

/-- Witness for C8 at concrete inputs: orthogonal vectors score 0 and a
nonzero vector scores 1 against itself. -/
theorem cosineSimilarity_bounds_witness :
    cosineSimilarity [(1 : ℚ), 0] [0, 2] = some 0 ∧
    cosineSimilarity [(3 : ℚ)] [3] = some 1 :=
  ⟨(cosineSimilarity_bounds [(1 : ℚ), 0] [0, 2] (by decide)).2.2
     (by norm_num [dotProduct]),
   (cosineSimilarity_bounds [(3 : ℚ)] [3] (by decide)).2.1
     (by norm_num [sumSquares])⟩

/-! ## Data model (types.ts) -/

/-- DependencyRelation from types.ts. -/
inductive DependencyRelation
  | importRel
  | extendsRel
  | implementsRel
  | injectsRel
deriving DecidableEq, Repr

/-- ChunkType from types.ts. -/
inductive ChunkType
  | file
  | method
  | class_signature
  | config
deriving DecidableEq, Repr

/-- GraphEdge from types.ts (a row of the dependency_graph table). -/
structure GraphEdge where
  sourcePath : String
  targetPath : String
  relation : DependencyRelation
deriving DecidableEq, Repr

/-- ChunkMetadata from types.ts. -/
structure ChunkMetadata where
  startLine : Nat
  endLine : Nat
  decorators : Option (List String) := none
  className : Option String := none
  methodName : Option String := none
deriving DecidableEq, Repr

/-- ProcessedChunk from types.ts.  The uuid ids are modelled as naturals
drawn from a counter (fresh per call, as uuidv4 is fresh per call). -/
structure ProcessedChunk where
  id : Nat
  filePath : Option String := none
  type : ChunkType
  content : String
  metadata : ChunkMetadata
  parentId : Option Nat := none
deriving DecidableEq, Repr

/-- The skeleton object built by NestChunker.analyze: the fixed marker
object for atomic files, or the imports plus class summaries produced by
generateSkeleton. -/
structure ClassSkeleton where
  name : Option String
  methods : List String
deriving DecidableEq, Repr

inductive Skeleton
  | full
  | detailed (importTexts : List String) (classes : List ClassSkeleton)
deriving DecidableEq, Repr

/-- FileAnalysisResult from types.ts (skeleton is never null out of
NestChunker.analyze, so it is carried directly). -/
structure FileAnalysisResult where
  filePath : String
  fileHash : String
  chunks : List ProcessedChunk
  dependencies : List GraphEdge
  skeleton : Skeleton
deriving DecidableEq, Repr

/-! ## Chunker (NestChunker) — the ts-morph AST is modelled as data -/

/-- A method declaration as the chunker reads it from the AST. -/
structure MethodDecl where
  name : String
  fullText : String
  startLine : Nat
  endLine : Nat
  decoratorNames : List String
  paramTexts : List String
  returnTypeText : String
deriving DecidableEq, Repr

/-- A top-level class declaration as the chunker reads it from the AST.
name is optional (anonymous default exports have none). -/
structure ClassDecl where
  name : Option String
  decoratorNames : List String
  decoratorTexts : List String
  propertyTexts : List String
  ctorTexts : List String
  methods : List MethodDecl
  startLine : Nat
  endLine : Nat
deriving DecidableEq, Repr

/-- One declaration of the file's header block bringing a module in:
its verbatim text and its module specifier string. -/
structure ImportDecl where
  text : String
  moduleSpecifier : String
deriving DecidableEq, Repr

/-- The parsed source file (the relevant observations of the AST). -/
structure SourceFileModel where
  classes : List ClassDecl
  fileImports : List ImportDecl
  fullText : String
  endLine : Nat
deriving DecidableEq, Repr

/-- The library String.endsWith / String.startsWith, computed on the
character lists (equivalent on valid strings; spelled out so concrete
runs evaluate inside the kernel). -/
def strEndsWith (s suffix : String) : Bool :=
  suffix.data.isSuffixOf s.data

def strStartsWith (s pre : String) : Bool :=
  pre.data.isPrefixOf s.data

/-- NestChunker.isAtomicFile: DTOs, entities, interfaces, enums, types. -/
def isAtomicFile (filePath : String) : Bool :=
  strEndsWith filePath ".dto.ts" || strEndsWith filePath ".entity.ts" ||
  strEndsWith filePath ".interface.ts" || strEndsWith filePath ".enum.ts" ||
  strEndsWith filePath ".type.ts"

/-- NestChunker.getClassName: name of the first class, if any. -/
def getClassName (fm : SourceFileModel) : Option String :=
  fm.classes.head?.bind (fun c => c.name)

/-- NestChunker.extractClassContext: decorators, class header, property
lines, first constructor, the sentinel comment, closing brace, with the
file's verbatim module-loading block prepended. -/
def extractClassContext (fm : SourceFileModel) (cls : ClassDecl) : String :=
  let decs := String.intercalate "\n" cls.decoratorTexts
  let header := decs ++ "\nexport class " ++ cls.name.getD "undefined" ++ " \x7b\n"
  let props := String.join (cls.propertyTexts.map (fun p => "  " ++ p ++ "\n"))
  let ctor :=
    match cls.ctorTexts.head? with
    | some c => "  " ++ c ++ "\n"
    | none => ""
  let body := header ++ props ++ ctor ++
    "  // Methods are indexed separately as child chunks...\n\x7d"
  let imps := String.intercalate "\n" (fm.fileImports.map (fun i => i.text))
  imps ++ "\n\n" ++ body

/-- NestChunker.processAtomicFile: one chunk of type file holding the
whole text.  Consumes one fresh id. -/
def processAtomicFile (fm : SourceFileModel) (n : Nat) :
    List ProcessedChunk × Nat :=
  ([{ id := n
      type := ChunkType.file
      content := fm.fullText
      metadata := { startLine := 1, endLine := fm.endLine,
                    className := getClassName fm } }], n + 1)

/-- The chunks emitted for one class by NestChunker.processLogicFile:
the class_signature parent followed by one method child per method, each
child's parentId set to the parent's id. -/
def chunkClass (fm : SourceFileModel) (cls : ClassDecl) (n : Nat) :
    List ProcessedChunk × Nat :=
  let parent : ProcessedChunk :=
    { id := n
      type := ChunkType.class_signature
      content := extractClassContext fm cls
      metadata := { startLine := cls.startLine, endLine := cls.endLine,
                    className := cls.name,
                    decorators := some cls.decoratorNames } }
  let children := cls.methods.enum.map (fun p =>
    { id := n + 1 + p.1
      parentId := some n
      type := ChunkType.method
      content := p.2.fullText
      metadata := { startLine := p.2.startLine, endLine := p.2.endLine,
                    className := cls.name,
                    methodName := some p.2.name,
                    decorators := some p.2.decoratorNames } : ProcessedChunk })
  (parent :: children, n + 1 + cls.methods.length)

/-- NestChunker.processLogicFile: parent-child chunks for every
top-level class, in class order. -/
def processLogicFile (fm : SourceFileModel) (n : Nat) :
    List ProcessedChunk × Nat :=
  fm.classes.foldl
    (fun acc cls =>
      let step := chunkClass fm cls acc.2
      (acc.1 ++ step.1, step.2))
    ([], n)

/-- NestChunker.extractDependencies: for each module-loading declaration
whose specifier is relative (starts with a dot) and resolves to a
physical file (resolveHere abstracts resolveModulePath together with the
filesystem and the forward-slash normalisation), emit one edge from the
current file.  Non-relative and unresolved specifiers are dropped. -/
def extractDependencies (resolveHere : String → Option String)
    (decls : List ImportDecl) (sourcePath : String) : List GraphEdge :=
  match decls with
  | [] => []
  | d :: rest =>
    let tail := extractDependencies resolveHere rest sourcePath
    if strStartsWith d.moduleSpecifier "." then
      match resolveHere d.moduleSpecifier with
      | some target =>
        { sourcePath := sourcePath, targetPath := target,
          relation := DependencyRelation.importRel } :: tail
      | none => tail
    else tail

/-- NestChunker.generateSkeleton: verbatim module-loading texts plus, per
class, the name and the method signature strings
name(paramText, ...): returnType; . -/
def generateSkeleton (fm : SourceFileModel) : Skeleton :=
  Skeleton.detailed (fm.fileImports.map (fun i => i.text))
    (fm.classes.map (fun c =>
      { name := c.name
        methods := c.methods.map (fun m =>
          m.name ++ "(" ++ String.intercalate ", " m.paramTexts ++ "): " ++
            m.returnTypeText ++ ";") }))

/-- NestChunker.analyze: extract dependencies, chunk by strategy, build
the skeleton.  Threads the fresh-id counter. -/
def NestChunker.analyze (resolveHere : String → Option String)
    (filePath : String) (fm : SourceFileModel) (fileHash : String)
    (n : Nat) : FileAnalysisResult × Nat :=
  let deps := extractDependencies resolveHere fm.fileImports filePath
  if isAtomicFile filePath then
    let step := processAtomicFile fm n
    ({ filePath := filePath, fileHash := fileHash, chunks := step.1,
       dependencies := deps, skeleton := Skeleton.full }, step.2)
  else
    let step := processLogicFile fm n
    ({ filePath := filePath, fileHash := fileHash, chunks := step.1,
       dependencies := deps, skeleton := generateSkeleton fm }, step.2)

/-! ## Store (AgentDB schema) and FileRegistry -/

/-- A row of file_registry (path primary key). -/
structure RegRow where
  path : String
  hash : String
  last_indexed : Nat
  skeleton_signature : Option Skeleton
deriving DecidableEq, Repr

/-- A row of code_chunks, with exactly the columns the schema declares
and embedAndSaveBatches writes: id, file_path, chunk_type, content,
vector_json, metadata.  The table has no parent column. -/
structure ChunkRow where
  id : Nat
  file_path : String
  chunk_type : ChunkType
  content : String
  vector_json : List ℚ
  metadata : ChunkMetadata
deriving DecidableEq, Repr

/-- The three relations of the Store.  Lists model the tables in rowid
(insertion) order. -/
structure Store where
  registry : List RegRow
  edges : List GraphEdge
  chunks : List ChunkRow
deriving DecidableEq, Repr

/-- INSERT OR REPLACE into file_registry on the path primary key. -/
def upsertReg (rows : List RegRow) (r : RegRow) : List RegRow :=
  rows.filter (fun x => x.path != r.path) ++ [r]

/-- INSERT OR IGNORE into dependency_graph.  The schema's primary key is
(source, target) — the relation column is not part of the key — so the
insert is ignored exactly when a row with the same source and target
already exists, whatever its relation. -/
def insertEdge (rows : List GraphEdge) (e : GraphEdge) : List GraphEdge :=
  if rows.any (fun x =>
      x.sourcePath == e.sourcePath && x.targetPath == e.targetPath)
  then rows
  else rows ++ [e]

/-- INSERT OR REPLACE into code_chunks on the id primary key. -/
def upsertChunk (rows : List ChunkRow) (r : ChunkRow) : List ChunkRow :=
  rows.filter (fun x => x.id != r.id) ++ [r]

/-- SELECT ... FROM file_registry WHERE path = ? (first match). -/
def findRegRow (st : Store) (filePath : String) : Option RegRow :=
  st.registry.find? (fun r => r.path == filePath)

/-- FileRegistry.isFileChanged: a missing file counts as changed; then
the md5 of the current content is compared against the stored hash.
fsys models the filesystem (readFileSync / existsSync) and hashFn the
md5 digest. -/
def FileRegistry.isFileChanged (hashFn : String → String)
    (fsys : String → Option String) (st : Store) (filePath : String) :
    Bool :=
  match fsys filePath with
  | none => true
  | some content =>
    let newHash := hashFn content
    match findRegRow st filePath with
    | none => true
    | some row => row.hash != newHash

/-- FileRegistry.updateFile: returns untouched when the file does not
exist on disk; otherwise re-reads, re-hashes and upserts the row. -/
def FileRegistry.updateFile (hashFn : String → String)
    (fsys : String → Option String) (now : Nat) (st : Store)
    (filePath : String) (skeleton : Option Skeleton) : Store :=
  match fsys filePath with
  | none => st
  | some content =>
    let row : RegRow :=
      { path := filePath, hash := hashFn content, last_indexed := now,
        skeleton_signature := skeleton }
    { st with registry := upsertReg st.registry row }

/-! ## Indexer (IndexerService) -/

/-- Observable write events of one indexProject run, in program order:
a registry upsert, a dependency-graph insert attempt, one embedding
request per batch, one chunk upsert per chunk of a successful batch. -/
inductive Event
  | regUpsert (path : String)
  | edgePersist (e : GraphEdge)
  | embedCall (inputs : List String)
  | chunkWrite (c : ChunkRow)
deriving DecidableEq, Repr

/-- The run-local state of indexProject: the Store plus the chunk and
edge accumulators, the emitted event trace, and the fresh-id counter. -/
structure RunState where
  store : Store
  chunkBuf : List ProcessedChunk
  edgeBuf : List GraphEdge
  trace : List Event
  counter : Nat
deriving Repr

/-- The ambient effects of a run: md5 (hashFn), the filesystem contents
(fsys : none models a read failure), AST construction
(parseFn : none models a chunker/parse throw), and module-specifier
resolution per file (resolve filePath specifier). -/
structure Env where
  hashFn : String → String
  fsys : String → Option String
  parseFn : String → String → Option SourceFileModel
  resolve : String → String → Option String

/-- IndexerService.processSingleFile: read, hash, analyze, then (1)
upsert the registry row, (2) append the file's edges to the edge buffer,
(3) append the file's chunks — tagged with the file path — to the chunk
buffer.  Any throw (read failure or parse failure) is caught and leaves
the run state untouched. -/
def processSingleFile (env : Env) (now : Nat) (filePath : String)
    (s : RunState) : RunState :=
  match env.fsys filePath with
  | none => s
  | some content =>
    match env.parseFn filePath content with
    | none => s
    | some fm =>
      let hash := env.hashFn content
      let step := NestChunker.analyze (env.resolve filePath) filePath fm
        hash s.counter
      let analysis := step.1
      let st' := FileRegistry.updateFile env.hashFn env.fsys now s.store
        filePath (some analysis.skeleton)
      { store := st'
        chunkBuf := s.chunkBuf ++
          analysis.chunks.map (fun c => { c with filePath := some filePath })
        edgeBuf := s.edgeBuf ++ analysis.dependencies
        trace := s.trace ++ [Event.regUpsert filePath]
        counter := step.2 }

/-- Pass A of indexProject: process every changed file in order. -/
def passA (env : Env) (now : Nat) (files : List String) (s : RunState) :
    RunState :=
  files.foldl (fun s f => processSingleFile env now f s) s

/-- One INSERT OR IGNORE of saveGraph, with its trace event. -/
def edgeStep (s : RunState) (e : GraphEdge) : RunState :=
  { s with
    store := { s.store with edges := insertEdge s.store.edges e }
    trace := s.trace ++ [Event.edgePersist e] }

/-- IndexerService.saveGraph (pass B): one INSERT OR IGNORE per buffered
edge, in buffer order, inside one transaction. -/
def saveGraphRun (edges : List GraphEdge) (s : RunState) : RunState :=
  edges.foldl edgeStep s

/-- The fixed embedding batch size of IndexerService. -/
def BATCH_SIZE : Nat := 10

/-- Slices a list into consecutive batches of k elements (the slice
loop of embedAndSaveBatches), by structural recursion on a fuel bounded
by the list length; the fuel never runs out when seeded with the
length. -/
def chunksOfGo {α : Type} (k : Nat) : Nat → List α → List (List α)
  | _, [] => []
  | 0, a :: rest => [a :: rest]
  | fuel + 1, a :: rest =>
    (a :: rest.take (k - 1)) :: chunksOfGo k fuel (rest.drop (k - 1))

def chunksOf {α : Type} (k : Nat) (l : List α) : List (List α) :=
  chunksOfGo k l.length l

/-- The embedding input string of a chunk: the Method:/Class: metadata
prefix line, then the raw content.  A missing class name renders as the
string undefined, as the template literal does. -/
def embedInput (c : ProcessedChunk) : String :=
  match c.metadata.methodName with
  | some m => "Method: " ++ m ++ "\n" ++ c.content
  | none => "Class: " ++ c.metadata.className.getD "undefined" ++ "\n" ++
      c.content

/-- The code_chunks row written for a chunk: exactly the columns of the
INSERT (id, file_path, chunk_type, content, vector_json, metadata).
embedVec abstracts the embedding backend (one vector per input string).
parentId has no column and is dropped. -/
def chunkToRow (embedVec : String → List ℚ) (c : ProcessedChunk) :
    ChunkRow :=
  { id := c.id
    file_path := c.filePath.getD ""
    chunk_type := c.type
    content := c.content
    vector_json := embedVec (embedInput c)
    metadata := c.metadata }

/-- One chunk upsert of a batch transaction, with its trace event. -/
def chunkStep (embedVec : String → List ℚ) (s : RunState)
    (c : ProcessedChunk) : RunState :=
  let row := chunkToRow embedVec c
  { s with
    store := { s.store with chunks := upsertChunk s.store.chunks row }
    trace := s.trace ++ [Event.chunkWrite row] }

/-- The transactional write of one successful batch: upsert every chunk
of the batch by id, in batch order. -/
def writeBatch (embedVec : String → List ℚ)
    (batch : List ProcessedChunk) (s : RunState) : RunState :=
  batch.foldl (chunkStep embedVec) s

/-- One indexed batch of pass C: request the embeddings (trace event),
then — when the request succeeds (batchOk on the batch index) — write
the batch; a failed batch is logged and skipped. -/
def batchStep (embedVec : String → List ℚ) (batchOk : Nat → Bool)
    (s : RunState) (ib : Nat × List ProcessedChunk) : RunState :=
  let s1 := { s with
    trace := s.trace ++ [Event.embedCall (ib.2.map embedInput)] }
  if batchOk ib.1 then writeBatch embedVec ib.2 s1 else s1

/-- IndexerService.embedAndSaveBatches (pass C): for each batch of ten,
one embedding request, then the transactional write when it succeeds;
later batches proceed after a failure. -/
def embedAndSaveBatches (embedVec : String → List ℚ)
    (batchOk : Nat → Bool) (allChunks : List ProcessedChunk)
    (s : RunState) : RunState :=
  (chunksOf BATCH_SIZE allChunks).enum.foldl (batchStep embedVec batchOk) s

/-- IndexerService.indexProject: filter the enumerated candidate files
by isFileChanged, run pass A (analyze and register), pass B (persist the
edge buffer), pass C (embed and persist the chunk buffer).  files is the
directory-walk enumeration (already .ts-filtered, .spec.ts excluded);
n0 seeds the fresh-id counter. -/
def indexProject (env : Env) (now : Nat) (embedVec : String → List ℚ)
    (batchOk : Nat → Bool) (files : List String) (st : Store) (n0 : Nat) :
    RunState :=
  let filesToProcess := files.filter
    (fun f => FileRegistry.isFileChanged env.hashFn env.fsys st f)
  let s1 := passA env now filesToProcess
    { store := st, chunkBuf := [], edgeBuf := [], trace := [], counter := n0 }
  let s2 := saveGraphRun s1.edgeBuf s1
  embedAndSaveBatches embedVec batchOk s1.chunkBuf s2

/-! ## Retriever (RetrieverService) -/

/-- The chunk object RetrieverService.query rebuilds from a code_chunks
row.  The row's file_path column is NOT NULL and the metadata written by
the indexer never carries a filePath, so the JS fallback
row.file_path || metadata.filePath reduces to the column. -/
structure RetrievedChunk where
  id : Nat
  type : ChunkType
  content : String
  metadata : ChunkMetadata
  filePath : String
deriving DecidableEq, Repr

def chunkOfRow (r : ChunkRow) : RetrievedChunk :=
  { id := r.id, type := r.chunk_type, content := r.content,
    metadata := r.metadata, filePath := r.file_path }

/-- A scored hit as returned by query. -/
structure SearchResult where
  score : ℝ
  chunk : RetrievedChunk

/-- Score every loaded row against the query vector, in row (insertion)
order.  A dimensionality mismatch in cosineSimilarity throws out of the
whole call (none). -/
noncomputable def scoreRows (qv : List ℚ) :
    List ChunkRow → Option (List SearchResult)
  | [] => some []
  | r :: rs =>
    match cosineSimilarity qv r.vector_json, scoreRows qv rs with
    | some s, some rest => some ({ score := s, chunk := chunkOfRow r } :: rest)
    | _, _ => none

/-- Stable insertion of a hit into a list sorted by descending score:
the new element goes after every element of strictly greater or equal
score it meets, before the first strictly smaller one. -/
noncomputable def insertFront (x : SearchResult) :
    List SearchResult → List SearchResult
  | [] => [x]
  | y :: ys =>
    if x.score < y.score then y :: insertFront x ys else x :: y :: ys

/-- The sort of query: Array.prototype.sort with comparator
(a, b) => b.score - a.score is a stable sort by descending score,
modelled as stable insertion sort. -/
noncomputable def sortHits : List SearchResult → List SearchResult
  | [] => []
  | x :: xs => insertFront x (sortHits xs)

/-- RetrieverService.query: embed the query (qv abstracts the returned
query vector), load all chunk rows, score each, sort by descending
score, return the first limit hits. -/
noncomputable def query (qv : List ℚ) (rows : List ChunkRow)
    (limit : Nat) : Option (List SearchResult) :=
  (scoreRows qv rows).map (fun scored => (sortHits scored).take limit)

/-- The grouping key of getContextForLLM: res.chunk.filePath with the JS
falsy fallback to the string unknown for an empty path. -/
def hitKey (r : SearchResult) : String :=
  if r.chunk.filePath = "" then "unknown" else r.chunk.filePath

/-- The per-file context assembled by getContextForLLM. -/
structure FileContext where
  filePath : String
  relevance : ℝ
  chunks : List RetrievedChunk
  fileDeps : List String
  skeleton : Option String

/-- filesMap.get(path)?.chunks.push(res.chunk): append the chunk to the
entry with the given key. -/
def pushChunk (fcs : List FileContext) (p : String) (c : RetrievedChunk) :
    List FileContext :=
  fcs.map (fun fc =>
    if fc.filePath == p then { fc with chunks := fc.chunks ++ [c] } else fc)

/-- The if (!filesMap.has(path)) branch of the grouping loop: a first
hit for a file creates its entry, with relevance = that hit's score and
the dependency and skeleton lookups done once. -/
def ensureEntry (deps : String → List String)
    (skel : String → Option String) (acc : List FileContext)
    (r : SearchResult) : List FileContext :=
  if acc.any (fun fc => fc.filePath == hitKey r) then acc
  else acc ++ [{ filePath := hitKey r, relevance := r.score, chunks := [],
                 fileDeps := deps (hitKey r), skeleton := skel (hitKey r) }]

/-- The grouping loop of getContextForLLM over the hits, in hit order:
ensure the file's entry exists, then append the hit's chunk to it.
deps and skel abstract getDependencies and getFileSkeleton. -/
def groupFiles (deps : String → List String)
    (skel : String → Option String) :
    List SearchResult → List FileContext → List FileContext
  | [], acc => acc
  | r :: rs, acc =>
    groupFiles deps skel rs
      (pushChunk (ensureEntry deps skel acc r) (hitKey r) r.chunk)

/-- RetrieverService.getContextForLLM up to the report formatting: query
with limit 4, then group hits by file.  The printed relevance is the
percentage rendering of FileContext.relevance. -/
noncomputable def getContextForLLM (qv : List ℚ) (rows : List ChunkRow)
    (deps : String → List String) (skel : String → Option String) :
    Option (List FileContext) :=
  (query qv rows 4).map (fun out => groupFiles deps skel out [])

/-! ## Shared concrete fixtures -/

/-- The empty Store (fresh database). -/
def st0 : Store := { registry := [], edges := [], chunks := [] }

/-- An empty run state over the empty Store. -/
def rs0 : RunState :=
  { store := st0, chunkBuf := [], edgeBuf := [], trace := [], counter := 0 }

/-- A stored import edge from src/a.ts to src/b.ts. -/
def edgeAB : GraphEdge :=
  { sourcePath := "src/a.ts", targetPath := "src/b.ts",
    relation := DependencyRelation.importRel }

/-- The same endpoints with the extends relation. -/
def edgeABExtends : GraphEdge :=
  { sourcePath := "src/a.ts", targetPath := "src/b.ts",
    relation := DependencyRelation.extendsRel }

/-! ## C1 — dependency-edge deduplication -/

/-- C1 (amended): INSERT OR IGNORE into dependency_graph leaves the
table unchanged exactly when a row with the same source and target is
already stored; the primary key is (source, target) — relation is not
part of the key — so an edge differing from a stored one only in
relation is ignored rather than stored as a distinct row. -/
theorem insertEdge_dedup (rows : List GraphEdge) (e : GraphEdge) :
    insertEdge rows e = rows ↔
    ∃ x ∈ rows, x.sourcePath = e.sourcePath ∧ x.targetPath = e.targetPath := by
  unfold insertEdge
  by_cases h : rows.any (fun x =>
      x.sourcePath == e.sourcePath && x.targetPath == e.targetPath)
  · rw [if_pos h]
    simp only [List.any_eq_true, Bool.and_eq_true, beq_iff_eq] at h
    exact iff_of_true rfl h
  · rw [if_neg h]
    simp only [List.any_eq_true, Bool.and_eq_true, beq_iff_eq] at h
    constructor
    · intro heq
      have hlen := congrArg List.length heq
      simp at hlen
    · intro hex
      exact absurd hex h

/-- Counterexample to C1 as stated: inserting an edge that differs from
a stored edge only in its relation leaves the graph unchanged, so the
second relation is not stored as a distinct row — and the graph is left
unchanged although no stored edge agrees on (source, target, relation). -/
theorem insertEdge_relation_counterexample :
    insertEdge [edgeAB] edgeABExtends = [edgeAB] ∧
    edgeABExtends ∉ [edgeAB] := by
  constructor
  · decide
  · decide

/-- Witness for C1 (amended) at a concrete input: re-inserting a stored
(source, target) pair is ignored. -/
theorem insertEdge_dedup_witness :
    insertEdge [edgeAB] edgeAB = [edgeAB] :=
  (insertEdge_dedup [edgeAB] edgeAB).mpr ⟨edgeAB, by decide, rfl, rfl⟩

/-! ## C9 — updateFile on a missing file -/

/-- C9: FileRegistry.updateFile on a path whose file does not exist
returns without raising and leaves the whole Store — the registry row
and every other relation — unchanged. -/
theorem updateFile_missing_file (hashFn : String → String)
    (fsys : String → Option String) (now : Nat) (st : Store)
    (filePath : String) (skeleton : Option Skeleton)
    (h : fsys filePath = none) :
    FileRegistry.updateFile hashFn fsys now st filePath skeleton = st := by
  unfold FileRegistry.updateFile
  rw [h]

/-- Witness for C9 on a concrete Store and filesystem. -/
theorem updateFile_missing_file_witness :
    FileRegistry.updateFile (fun c => c) (fun _ => none) 5
      { registry := [{ path := "src/a.ts", hash := "h", last_indexed := 0,
                       skeleton_signature := none }],
        edges := [edgeAB], chunks := [] }
      "src/b.ts" none =
    { registry := [{ path := "src/a.ts", hash := "h", last_indexed := 0,
                     skeleton_signature := none }],
      edges := [edgeAB], chunks := [] } :=
  updateFile_missing_file _ _ _ _ _ _ rfl

/-! ## C10 — logic file without classes -/

/-- C10: analyzing a non-atomic file whose AST holds no top-level class
produces an empty chunk list — so processSingleFile buffers no chunk for
it and nothing of it is ever embedded or written — while its resolved
edges are still extracted (and buffered) and its skeleton still carries
the verbatim module-loading texts with an empty class list. -/
theorem analyze_no_classes (env : Env) (now : Nat) (f content : String)
    (fm : SourceFileModel) (s : RunState)
    (hread : env.fsys f = some content)
    (hparse : env.parseFn f content = some fm)
    (hatomic : isAtomicFile f = false)
    (hcls : fm.classes = []) :
    (NestChunker.analyze (env.resolve f) f fm (env.hashFn content)
        s.counter).1.chunks = [] ∧
    (NestChunker.analyze (env.resolve f) f fm (env.hashFn content)
        s.counter).1.dependencies =
      extractDependencies (env.resolve f) fm.fileImports f ∧
    (NestChunker.analyze (env.resolve f) f fm (env.hashFn content)
        s.counter).1.skeleton =
      Skeleton.detailed (fm.fileImports.map (fun i => i.text)) [] ∧
    (processSingleFile env now f s).chunkBuf = s.chunkBuf ∧
    (processSingleFile env now f s).edgeBuf =
      s.edgeBuf ++ extractDependencies (env.resolve f) fm.fileImports f := by
  have hlogic : processLogicFile fm s.counter = ([], s.counter) := by
    unfold processLogicFile
    rw [hcls]
    rfl
  have hana : NestChunker.analyze (env.resolve f) f fm (env.hashFn content)
      s.counter =
      ({ filePath := f, fileHash := env.hashFn content, chunks := [],
         dependencies := extractDependencies (env.resolve f) fm.fileImports f,
         skeleton := generateSkeleton fm }, s.counter) := by
    unfold NestChunker.analyze
    rw [hatomic]
    simp [hlogic]
  have hskel : generateSkeleton fm =
      Skeleton.detailed (fm.fileImports.map (fun i => i.text)) [] := by
    unfold generateSkeleton
    rw [hcls]
    rfl
  refine ⟨by rw [hana], by rw [hana], by rw [hana]; exact hskel, ?_, ?_⟩ <;>
  · simp only [processSingleFile, hread, hparse, hana]
    try simp

/-- A file model with a single relative module reference and no class. -/
def fmNoClass : SourceFileModel :=
  { classes := [],
    fileImports := [{ text := "LOAD ./b", moduleSpecifier := "./b" }],
    fullText := "LOAD ./b", endLine := 1 }

/-- An environment whose parser yields fmNoClass for every file and
which resolves ./b to src/b.ts. -/
def envNoClass : Env :=
  { hashFn := fun c => c, fsys := fun _ => some "LOAD ./b",
    parseFn := fun _ _ => some fmNoClass,
    resolve := fun _ spec => if spec = "./b" then some "src/b.ts" else none }

/-- Witness for C10: the class-less logic file src/u.ts yields no chunk,
but its resolved import edge and its empty-class skeleton are produced. -/
theorem analyze_no_classes_witness :
    (NestChunker.analyze (envNoClass.resolve "src/u.ts") "src/u.ts"
        fmNoClass (envNoClass.hashFn "LOAD ./b") rs0.counter).1.chunks = [] ∧
    (processSingleFile envNoClass 0 "src/u.ts" rs0).edgeBuf =
      rs0.edgeBuf ++ extractDependencies (envNoClass.resolve "src/u.ts")
        fmNoClass.fileImports "src/u.ts" :=
  ⟨(analyze_no_classes envNoClass 0 "src/u.ts" "LOAD ./b" fmNoClass rs0
      rfl rfl (by decide) rfl).1,
   (analyze_no_classes envNoClass 0 "src/u.ts" "LOAD ./b" fmNoClass rs0
      rfl rfl (by decide) rfl).2.2.2.2⟩

/-! ## C6 — parse failure handling -/

theorem find?_filter_append {α : Type} (p q : α → Bool) (l : List α) (r : α)
    (hr : p r = false) (himp : ∀ x, p x = true → q x = true) :
    (l.filter q ++ [r]).find? p = l.find? p := by
  induction l with
  | nil => simp [List.find?, hr]
  | cons a as ih =>
    by_cases hpa : p a = true
    · have hqa : q a = true := himp a hpa
      simp [List.filter_cons, hqa, List.find?_cons, hpa]
    · by_cases hqa : q a = true <;>
        simp_all [List.filter_cons, List.find?_cons]

/-- A file on which the chunker always throws never has its registry
lookup disturbed by processSingleFile, whichever file is processed. -/
theorem processSingleFile_preserves_row (env : Env) (now : Nat) (f : String)
    (hfail : ∀ c, env.parseFn f c = none) (g : String) (s : RunState) :
    findRegRow (processSingleFile env now g s).store f =
      findRegRow s.store f := by
  unfold processSingleFile
  cases hc : env.fsys g with
  | none => rfl
  | some content =>
    cases hp : env.parseFn g content with
    | none => simp only [hp]
    | some fm =>
      have hne : g ≠ f := by
        intro h
        rw [h, hfail content] at hp
        exact Option.noConfusion hp
      simp only [hp]
      unfold findRegRow FileRegistry.updateFile upsertReg
      simp only [hc]
      exact find?_filter_append _ _ _ _
        (by simp [hne])
        (fun x hx => by
          simp only [beq_iff_eq] at hx
          simp only [hx, bne_iff_ne]
          exact Ne.symm hne)

theorem passA_preserves_row (env : Env) (now : Nat) (f : String)
    (hfail : ∀ c, env.parseFn f c = none) (files : List String) :
    ∀ s : RunState,
      findRegRow (passA env now files s).store f = findRegRow s.store f := by
  induction files with
  | nil => intro s; rfl
  | cons g gs ih =>
    intro s
    show findRegRow
      (passA env now gs (processSingleFile env now g s)).store f = _
    rw [ih, processSingleFile_preserves_row env now f hfail g s]

theorem saveGraphRun_registry (es : List GraphEdge) :
    ∀ s : RunState,
      (saveGraphRun es s).store.registry = s.store.registry := by
  induction es with
  | nil => intro s; rfl
  | cons e rest ih =>
    intro s
    show (saveGraphRun rest (edgeStep s e)).store.registry = _
    rw [ih]
    rfl

theorem writeBatch_registry (embedVec : String → List ℚ)
    (batch : List ProcessedChunk) :
    ∀ s : RunState,
      (writeBatch embedVec batch s).store.registry = s.store.registry := by
  induction batch with
  | nil => intro s; rfl
  | cons c rest ih =>
    intro s
    show (writeBatch embedVec rest (chunkStep embedVec s c)).store.registry = _
    rw [ih]
    rfl

theorem batchesFold_registry (embedVec : String → List ℚ)
    (batchOk : Nat → Bool) (bs : List (Nat × List ProcessedChunk)) :
    ∀ s : RunState,
      (bs.foldl (batchStep embedVec batchOk) s).store.registry =
        s.store.registry := by
  induction bs with
  | nil => intro s; rfl
  | cons ib rest ih =>
    intro s
    show (rest.foldl (batchStep embedVec batchOk)
      (batchStep embedVec batchOk s ib)).store.registry = _
    rw [ih]
    unfold batchStep
    by_cases h : batchOk ib.1 <;> simp [h, writeBatch_registry]

/-- C6: when the chunker throws on file f, (i) processSingleFile on f
leaves the run state untouched — no registry update, no buffered chunks
or edges; (ii) the pass-A loop over any file list containing f equals
the loop with f removed, so the indexer goes on with the remaining
files; (iii) after the whole indexProject run, f's registry row lookup
is what it was before the run; (iv) hence isFileChanged still answers
for f exactly as before the run — a changed file is re-detected by a
later run. -/
theorem indexer_parse_failure (env : Env) (now : Nat)
    (embedVec : String → List ℚ) (batchOk : Nat → Bool)
    (files : List String) (st : Store) (n0 : Nat) (f : String)
    (hfail : ∀ c, env.parseFn f c = none) :
    (∀ s, processSingleFile env now f s = s) ∧
    (∀ pre post s, passA env now (pre ++ f :: post) s =
        passA env now (pre ++ post) s) ∧
    findRegRow (indexProject env now embedVec batchOk files st n0).store f =
      findRegRow st f ∧
    FileRegistry.isFileChanged env.hashFn env.fsys
        (indexProject env now embedVec batchOk files st n0).store f =
      FileRegistry.isFileChanged env.hashFn env.fsys st f := by
  have h1 : ∀ s, processSingleFile env now f s = s := by
    intro s
    unfold processSingleFile
    cases hc : env.fsys f with
    | none => rfl
    | some c => simp only [hfail c]
  have h2 : ∀ pre post s, passA env now (pre ++ f :: post) s =
      passA env now (pre ++ post) s := by
    intro pre post s
    unfold passA
    simp only [List.foldl_append, List.foldl_cons, h1]
  have h3 : findRegRow
      (indexProject env now embedVec batchOk files st n0).store f =
      findRegRow st f := by
    unfold indexProject embedAndSaveBatches
    unfold findRegRow
    rw [batchesFold_registry, saveGraphRun_registry]
    exact passA_preserves_row env now f hfail _ _
  have h4 : FileRegistry.isFileChanged env.hashFn env.fsys
      (indexProject env now embedVec batchOk files st n0).store f =
      FileRegistry.isFileChanged env.hashFn env.fsys st f := by
    unfold FileRegistry.isFileChanged
    cases env.fsys f with
    | none => rfl
    | some content => rw [h3]
  exact ⟨h1, h2, h3, h4⟩

/-- An environment whose parser always throws. -/
def envFail : Env :=
  { hashFn := fun c => c, fsys := fun _ => some "x",
    parseFn := fun _ _ => none, resolve := fun _ _ => none }

/-- Witness for C6: with an always-throwing chunker, processing src/a.ts
changes nothing and the file is still detected as changed after a full
indexProject run over it. -/
theorem indexer_parse_failure_witness :
    processSingleFile envFail 0 "src/a.ts" rs0 = rs0 ∧
    FileRegistry.isFileChanged envFail.hashFn envFail.fsys
        (indexProject envFail 0 (fun _ => []) (fun _ => true)
          ["src/a.ts"] st0 0).store "src/a.ts" =
      FileRegistry.isFileChanged envFail.hashFn envFail.fsys st0 "src/a.ts" :=
  ⟨(indexer_parse_failure envFail 0 (fun _ => []) (fun _ => true)
      ["src/a.ts"] st0 0 "src/a.ts" (fun _ => rfl)).1 rs0,
   (indexer_parse_failure envFail 0 (fun _ => []) (fun _ => true)
      ["src/a.ts"] st0 0 "src/a.ts" (fun _ => rfl)).2.2.2⟩

/-! ## C3 — ordering of registry writes, edge persists, chunk writes -/

/-- Every edge the chunker extracts has the analyzed file as source. -/
theorem extractDependencies_source (res : String → Option String)
    (decls : List ImportDecl) (src : String) :
    ∀ e ∈ extractDependencies res decls src, e.sourcePath = src := by
  induction decls with
  | nil => simp [extractDependencies]
  | cons d rest ih =>
    intro e he
    simp only [extractDependencies] at he
    by_cases hs : strStartsWith d.moduleSpecifier "." = true
    · rw [if_pos hs] at he
      cases hr : res d.moduleSpecifier with
      | some t =>
        rw [hr] at he
        rcases List.mem_cons.mp he with h | h
        · rw [h]
        · exact ih e h
      | none =>
        rw [hr] at he
        exact ih e he
    · rw [if_neg hs] at he
      exact ih e he

/-- analyze extracts the same dependency list on both strategies. -/
theorem analyze_dependencies (res : String → Option String) (f : String)
    (fm : SourceFileModel) (h : String) (n : Nat) :
    (NestChunker.analyze res f fm h n).1.dependencies =
      extractDependencies res fm.fileImports f := by
  unfold NestChunker.analyze
  cases ha : isAtomicFile f <;> simp [ha]

/-- The invariant that pass A maintains: the trace holds only registry
upserts, and every buffered edge's source already has its upsert in the
trace. -/
def PassAInv (s : RunState) : Prop :=
  (∀ ev ∈ s.trace, ∃ p, ev = Event.regUpsert p) ∧
  (∀ e ∈ s.edgeBuf, Event.regUpsert e.sourcePath ∈ s.trace)

theorem processSingleFile_inv (env : Env) (now : Nat) (f : String)
    (s : RunState) (h : PassAInv s) :
    PassAInv (processSingleFile env now f s) := by
  cases hc : env.fsys f with
  | none => simpa only [processSingleFile, hc] using h
  | some content =>
    cases hp : env.parseFn f content with
    | none => simpa only [processSingleFile, hc, hp] using h
    | some fm =>
      simp only [processSingleFile, hc, hp]
      constructor
      · intro ev hev
        rcases List.mem_append.mp hev with h1 | h1
        · exact h.1 ev h1
        · exact ⟨f, List.mem_singleton.mp h1⟩
      · intro e he
        rcases List.mem_append.mp he with h1 | h1
        · exact List.mem_append_left _ (h.2 e h1)
        · rw [analyze_dependencies] at h1
          have := extractDependencies_source (env.resolve f)
            fm.fileImports f e h1
          rw [this]
          exact List.mem_append_right _ (List.mem_singleton.mpr rfl)

theorem passA_inv (env : Env) (now : Nat) (files : List String) :
    ∀ s : RunState, PassAInv s → PassAInv (passA env now files s) := by
  induction files with
  | nil => exact fun s h => h
  | cons g gs ih =>
    intro s h
    exact ih _ (processSingleFile_inv env now g s h)

theorem saveGraphRun_trace (es : List GraphEdge) :
    ∀ s : RunState,
      (saveGraphRun es s).trace = s.trace ++ es.map Event.edgePersist := by
  induction es with
  | nil => intro s; simp [saveGraphRun]
  | cons e rest ih =>
    intro s
    show (saveGraphRun rest (edgeStep s e)).trace = _
    rw [ih]
    show (s.trace ++ [Event.edgePersist e]) ++ _ = _
    simp

theorem writeBatch_trace (embedVec : String → List ℚ)
    (batch : List ProcessedChunk) :
    ∀ s : RunState, ∃ t,
      (writeBatch embedVec batch s).trace = s.trace ++ t ∧
      ∀ ev ∈ t, ∃ c, ev = Event.chunkWrite c := by
  induction batch with
  | nil => intro s; exact ⟨[], by simp [writeBatch], by simp⟩
  | cons c rest ih =>
    intro s
    obtain ⟨t, ht, hall⟩ := ih (chunkStep embedVec s c)
    refine ⟨Event.chunkWrite (chunkToRow embedVec c) :: t, ?_, ?_⟩
    · show (writeBatch embedVec rest (chunkStep embedVec s c)).trace = _
      rw [ht]
      show (s.trace ++ [Event.chunkWrite (chunkToRow embedVec c)]) ++ t = _
      simp
    · intro ev hev
      rcases List.mem_cons.mp hev with h | h
      · exact ⟨_, h⟩
      · exact hall ev h

theorem batchesFold_trace (embedVec : String → List ℚ)
    (batchOk : Nat → Bool) (bs : List (Nat × List ProcessedChunk)) :
    ∀ s : RunState, ∃ t,
      (bs.foldl (batchStep embedVec batchOk) s).trace = s.trace ++ t ∧
      ∀ ev ∈ t, (∃ x, ev = Event.embedCall x) ∨ ∃ c, ev = Event.chunkWrite c := by
  induction bs with
  | nil => intro s; exact ⟨[], by simp, by simp⟩
  | cons ib rest ih =>
    intro s
    have hstep : ∃ t0, (batchStep embedVec batchOk s ib).trace =
        s.trace ++ t0 ∧
        ∀ ev ∈ t0, (∃ x, ev = Event.embedCall x) ∨
          ∃ c, ev = Event.chunkWrite c := by
      by_cases hok : batchOk ib.1 = true
      · obtain ⟨t, ht, hall⟩ := writeBatch_trace embedVec ib.2
          { s with trace := s.trace ++ [Event.embedCall (ib.2.map embedInput)] }
        refine ⟨Event.embedCall (ib.2.map embedInput) :: t, ?_, ?_⟩
        · simp only [batchStep, if_pos hok]
          rw [ht]
          simp
        · intro ev hev
          rcases List.mem_cons.mp hev with h | h
          · exact Or.inl ⟨_, h⟩
          · exact Or.inr (hall ev h)
      · refine ⟨[Event.embedCall (ib.2.map embedInput)], ?_, ?_⟩
        · simp only [batchStep, if_neg hok]
        · intro ev hev
          exact Or.inl ⟨_, List.mem_singleton.mp hev⟩
    obtain ⟨t0, ht0, hall0⟩ := hstep
    obtain ⟨t1, ht1, hall1⟩ := ih (batchStep embedVec batchOk s ib)
    refine ⟨t0 ++ t1, ?_, ?_⟩
    · show (rest.foldl (batchStep embedVec batchOk)
        (batchStep embedVec batchOk s ib)).trace = _
      rw [ht1, ht0]
      simp
    · intro ev hev
      rcases List.mem_append.mp hev with h | h
      · exact hall0 ev h
      · exact hall1 ev h

/-- C3: the event trace of an indexProject run decomposes into pass A
(registry upserts only), then pass B (edge persists only — and the
source file of every persisted edge had its registry row upserted in
pass A), then pass C (embedding calls and chunk writes only).  Hence
every file's registry upsert precedes every persisted edge with that
source, and every persisted edge precedes every embedding call and
chunk write of the run. -/
theorem indexProject_ordering (env : Env) (now : Nat)
    (embedVec : String → List ℚ) (batchOk : Nat → Bool)
    (files : List String) (st : Store) (n0 : Nat) :
    ∃ (tA tB tC : List Event) (es : List GraphEdge),
      (indexProject env now embedVec batchOk files st n0).trace =
        tA ++ tB ++ tC ∧
      (∀ ev ∈ tA, ∃ p, ev = Event.regUpsert p) ∧
      tB = es.map Event.edgePersist ∧
      (∀ e ∈ es, Event.regUpsert e.sourcePath ∈ tA) ∧
      (∀ ev ∈ tC, (∃ x, ev = Event.embedCall x) ∨
        ∃ c, ev = Event.chunkWrite c) := by
  have key : ∀ s1 : RunState, PassAInv s1 →
      ∃ (tA tB tC : List Event) (es : List GraphEdge),
        (embedAndSaveBatches embedVec batchOk s1.chunkBuf
            (saveGraphRun s1.edgeBuf s1)).trace = tA ++ tB ++ tC ∧
        (∀ ev ∈ tA, ∃ p, ev = Event.regUpsert p) ∧
        tB = es.map Event.edgePersist ∧
        (∀ e ∈ es, Event.regUpsert e.sourcePath ∈ tA) ∧
        (∀ ev ∈ tC, (∃ x, ev = Event.embedCall x) ∨
          ∃ c, ev = Event.chunkWrite c) := by
    intro s1 hinv
    obtain ⟨tC, htC, hallC⟩ := batchesFold_trace embedVec batchOk
      ((chunksOf BATCH_SIZE s1.chunkBuf).enum) (saveGraphRun s1.edgeBuf s1)
    refine ⟨s1.trace, s1.edgeBuf.map Event.edgePersist, tC, s1.edgeBuf,
      ?_, hinv.1, rfl, hinv.2, hallC⟩
    show (embedAndSaveBatches embedVec batchOk s1.chunkBuf
      (saveGraphRun s1.edgeBuf s1)).trace = _
    rw [show embedAndSaveBatches embedVec batchOk s1.chunkBuf
        (saveGraphRun s1.edgeBuf s1) =
        ((chunksOf BATCH_SIZE s1.chunkBuf).enum).foldl
          (batchStep embedVec batchOk) (saveGraphRun s1.edgeBuf s1) from rfl]
    rw [htC, saveGraphRun_trace]
  exact key
    (passA env now
      (files.filter (fun f =>
        FileRegistry.isFileChanged env.hashFn env.fsys st f))
      { store := st, chunkBuf := [], edgeBuf := [], trace := [],
        counter := n0 })
    (passA_inv env now _ _ ⟨by simp, by simp⟩)

/-! ## C2 — parent linkage of method chunks in the Store -/

/-- A logic-file AST with one class carrying one method. -/
def mFindAll : MethodDecl :=
  { name := "findAll", fullText := "findAll() ...",
    startLine := 5, endLine := 7, decoratorNames := [],
    paramTexts := [], returnTypeText := "void" }

def clsUsers : ClassDecl :=
  { name := some "UsersService", decoratorNames := ["Injectable"],
    decoratorTexts := ["AT-Injectable"], propertyTexts := [],
    ctorTexts := [], methods := [mFindAll], startLine := 1, endLine := 8 }

def fmUsers : SourceFileModel :=
  { classes := [clsUsers], fileImports := [], fullText := "SRC",
    endLine := 8 }

/-- An environment that parses every file to fmUsers. -/
def envUsers : Env :=
  { hashFn := fun c => c, fsys := fun _ => some "SRC",
    parseFn := fun _ _ => some fmUsers, resolve := fun _ _ => none }

/-- C2 is unsatisfiable in the Store: (i) indexing the one-class
one-method logic file src/u.ts does persist a chunk row of type method
(with every embedding batch succeeding), yet (ii) the row written by
embedAndSaveBatches — the columns (id, file_path, chunk_type, content,
vector_json, metadata) of the INSERT — is independent of the chunk's
parentId: code_chunks has no parent_id column, so no persisted method
chunk carries a parent pointer at all, let alone one that points to a
class_signature chunk of the same file. -/
theorem chunk_parent_not_persisted :
    (∃ r ∈ (indexProject envUsers 0 (fun _ => []) (fun _ => true)
        ["src/u.ts"] st0 0).store.chunks,
      r.chunk_type = ChunkType.method) ∧
    (∀ (embedVec : String → List ℚ) (c : ProcessedChunk)
        (p q : Option Nat),
      chunkToRow embedVec { c with parentId := p } =
        chunkToRow embedVec { c with parentId := q }) := by
  constructor
  · decide
  · intro embedVec c p q
    rfl

/-! ## C4 — query: top-limit hits, sorted, stable, carrying score+chunk -/

theorem insertFront_perm (x : SearchResult) (l : List SearchResult) :
    List.Perm (insertFront x l) (x :: l) := by
  induction l with
  | nil => exact List.Perm.refl _
  | cons y ys ih =>
    unfold insertFront
    by_cases h : x.score < y.score
    · rw [if_pos h]
      exact List.Perm.trans (List.Perm.cons y ih) (List.Perm.swap x y ys)
    · rw [if_neg h]

theorem sortHits_perm (l : List SearchResult) :
    List.Perm (sortHits l) l := by
  induction l with
  | nil => exact List.Perm.refl _
  | cons x xs ih =>
    exact List.Perm.trans (insertFront_perm x (sortHits xs))
      (List.Perm.cons x ih)

theorem insertFront_sorted (x : SearchResult) (l : List SearchResult)
    (h : l.Pairwise (fun a b => b.score ≤ a.score)) :
    (insertFront x l).Pairwise (fun a b => b.score ≤ a.score) := by
  induction l with
  | nil => simp [insertFront]
  | cons y ys ih =>
    rcases List.pairwise_cons.mp h with ⟨hy, hys⟩
    unfold insertFront
    by_cases hlt : x.score < y.score
    · rw [if_pos hlt]
      refine List.pairwise_cons.mpr ⟨?_, ih hys⟩
      intro z hz
      have hz' := (insertFront_perm x ys).mem_iff.mp hz
      rcases List.mem_cons.mp hz' with rfl | hzys
      · exact le_of_lt hlt
      · exact hy z hzys
    · rw [if_neg hlt]
      push_neg at hlt
      refine List.pairwise_cons.mpr ⟨?_, h⟩
      intro z hz
      rcases List.mem_cons.mp hz with rfl | hzys
      · exact hlt
      · exact le_trans (hy z hzys) hlt

theorem sortHits_sorted (l : List SearchResult) :
    (sortHits l).Pairwise (fun a b => b.score ≤ a.score) := by
  induction l with
  | nil => simp [sortHits]
  | cons x xs ih => exact insertFront_sorted x (sortHits xs) ih

theorem insertFront_filter_score (x : SearchResult)
    (l : List SearchResult) (s : ℝ) :
    (insertFront x l).filter (fun h => decide (h.score = s)) =
      (if x.score = s then [x] else []) ++
        l.filter (fun h => decide (h.score = s)) := by
  induction l with
  | nil =>
    by_cases hx : x.score = s <;> simp [insertFront, hx]
  | cons y ys ih =>
    unfold insertFront
    by_cases hlt : x.score < y.score
    · rw [if_pos hlt]
      by_cases hx : x.score = s
      · have hy : ¬(y.score = s) := by
          rw [← hx]
          exact ne_of_gt hlt
        simp [List.filter_cons, hy, ih, hx]
      · by_cases hy : y.score = s <;>
          simp [List.filter_cons, hy, ih, hx]
    · rw [if_neg hlt]
      by_cases hx : x.score = s <;>
        simp [List.filter_cons, hx]

theorem sortHits_filter_score (l : List SearchResult) (s : ℝ) :
    (sortHits l).filter (fun h => decide (h.score = s)) =
      l.filter (fun h => decide (h.score = s)) := by
  induction l with
  | nil => rfl
  | cons x xs ih =>
    show (insertFront x (sortHits xs)).filter _ = _
    rw [insertFront_filter_score, ih]
    by_cases hx : x.score = s <;> simp [List.filter_cons, hx]

theorem scoreRows_mem (qv : List ℚ) (rows : List ChunkRow)
    (scored : List SearchResult) (h : scoreRows qv rows = some scored) :
    ∀ x ∈ scored, ∃ r ∈ rows,
      cosineSimilarity qv r.vector_json = some x.score ∧
      x.chunk = chunkOfRow r := by
  induction rows generalizing scored with
  | nil =>
    have : scored = [] := by
      simpa [scoreRows] using h.symm
    subst this
    simp
  | cons r rs ih =>
    simp only [scoreRows] at h
    cases hc : cosineSimilarity qv r.vector_json with
    | none =>
      rw [hc] at h
      simp at h
    | some sc =>
      rw [hc] at h
      cases hrest : scoreRows qv rs with
      | none =>
        rw [hrest] at h
        simp at h
      | some rest =>
        rw [hrest] at h
        have hs : scored = { score := sc, chunk := chunkOfRow r } :: rest := by
          simpa using h.symm
        subst hs
        intro x hx
        rcases List.mem_cons.mp hx with rfl | hxr
        · exact ⟨r, List.mem_cons_self r rs, hc, rfl⟩
        · obtain ⟨r', hr', hcs, hch⟩ := ih rest hrest x hxr
          exact ⟨r', List.mem_cons_of_mem r hr', hcs, hch⟩

/-- C4: whenever query returns (no dimensionality throw), it returns at
most limit hits, sorted by non-increasing cosine score; ties keep the
loaded (insertion) order — for every score value, the returned hits of
that score are a prefix, in load order, of all loaded hits of that
score; and every hit carries the cosine score of a loaded chunk row
together with that row's chunk. -/
theorem query_spec (qv : List ℚ) (rows : List ChunkRow) (limit : Nat)
    (scored out : List SearchResult)
    (hs : scoreRows qv rows = some scored)
    (hq : query qv rows limit = some out) :
    out.length ≤ limit ∧
    out.Pairwise (fun a b => b.score ≤ a.score) ∧
    (∀ s : ℝ, out.filter (fun h => decide (h.score = s)) <+:
      scored.filter (fun h => decide (h.score = s))) ∧
    (∀ x ∈ out, ∃ r ∈ rows,
      cosineSimilarity qv r.vector_json = some x.score ∧
      x.chunk = chunkOfRow r) := by
  have hout : out = (sortHits scored).take limit := by
    unfold query at hq
    rw [hs] at hq
    simpa using hq.symm
  subst hout
  refine ⟨?_, ?_, ?_, ?_⟩
  · rw [List.length_take]
    exact min_le_left _ _
  · exact List.Pairwise.sublist (List.take_sublist _ _)
      (sortHits_sorted scored)
  · intro s
    refine ⟨((sortHits scored).drop limit).filter
      (fun h => decide (h.score = s)), ?_⟩
    rw [← List.filter_append, List.take_append_drop, sortHits_filter_score]
  · intro x hx
    have hx1 : x ∈ sortHits scored := (List.take_subset _ _) hx
    have hx2 : x ∈ scored := (sortHits_perm scored).mem_iff.mp hx1
    exact scoreRows_mem qv rows scored hs x hx2

/-- Witness for C4 at a concrete input (empty chunk table): query
returns and yields at most limit hits. -/
theorem query_spec_witness :
    query [] [] 5 = some [] ∧ ([] : List SearchResult).length ≤ 5 :=
  ⟨rfl, (query_spec [] [] 5 [] [] rfl rfl).1⟩

/-! ## C5 — report relevance is the per-file maximum hit score -/

/-- pushChunk only touches the chunks field: keys and relevances are
preserved rowwise. -/
theorem pushChunk_keyRel (fcs : List FileContext) (p : String)
    (c : RetrievedChunk) :
    (pushChunk fcs p c).map (fun fc => (fc.filePath, fc.relevance)) =
      fcs.map (fun fc => (fc.filePath, fc.relevance)) := by
  unfold pushChunk
  rw [List.map_map]
  apply List.map_congr_left
  intro fc _
  by_cases h : fc.filePath = p
  · simp [h]
  · simp [h]

/-- The property C5 asserts of a file context: its relevance is attained
by a hit of its file and dominates every hit of its file. -/
def MaxRelIn (out : List SearchResult) (fc : FileContext) : Prop :=
  (∃ r ∈ out, hitKey r = fc.filePath ∧ r.score = fc.relevance) ∧
  (∀ r ∈ out, hitKey r = fc.filePath → r.score ≤ fc.relevance)

/-- A (key, relevance) pair occurs in the accumulator after pushChunk
exactly when it occurred before. -/
theorem pushChunk_pair_mem (fcs : List FileContext) (p : String)
    (c : RetrievedChunk) (q : String × ℝ) :
    (∃ fc ∈ pushChunk fcs p c, (fc.filePath, fc.relevance) = q) ↔
      ∃ fc ∈ fcs, (fc.filePath, fc.relevance) = q := by
  constructor
  · rintro ⟨fc, hfc, hq⟩
    have hmem : q ∈ (pushChunk fcs p c).map
        (fun fc => (fc.filePath, fc.relevance)) :=
      List.mem_map.mpr ⟨fc, hfc, hq⟩
    rw [pushChunk_keyRel] at hmem
    exact List.mem_map.mp hmem
  · rintro ⟨fc, hfc, hq⟩
    have hmem : q ∈ fcs.map (fun fc => (fc.filePath, fc.relevance)) :=
      List.mem_map.mpr ⟨fc, hfc, hq⟩
    rw [← pushChunk_keyRel fcs p c] at hmem
    exact List.mem_map.mp hmem

theorem groupFiles_max (deps : String → List String)
    (skel : String → Option String) (out : List SearchResult) :
    ∀ (rs : List SearchResult) (acc : List FileContext),
      rs.Pairwise (fun a b => b.score ≤ a.score) →
      (∀ r ∈ rs, r ∈ out) →
      (∀ fc ∈ acc, MaxRelIn out fc) →
      (∀ r ∈ out, (∀ fc ∈ acc, fc.filePath ≠ hitKey r) → r ∈ rs) →
      ∀ fc ∈ groupFiles deps skel rs acc, MaxRelIn out fc := by
  intro rs
  induction rs with
  | nil =>
    intro acc _ _ hacc _ fc hfc
    exact hacc fc hfc
  | cons r rest ih =>
    intro acc hsort hsub hacc hcover
    rcases List.pairwise_cons.mp hsort with ⟨hhead, hrest⟩
    have haccE : ∀ fc ∈ ensureEntry deps skel acc r, MaxRelIn out fc := by
      intro fc hfc
      unfold ensureEntry at hfc
      by_cases hany : acc.any (fun fc => fc.filePath == hitKey r) = true
      · rw [if_pos hany] at hfc
        exact hacc fc hfc
      · rw [if_neg hany] at hfc
        rcases List.mem_append.mp hfc with h1 | h1
        · exact hacc fc h1
        · have h2 := List.mem_singleton.mp h1
          subst h2
          have hnone : ∀ fc0 ∈ acc, fc0.filePath ≠ hitKey r := by
            intro fc0 hfc0 heq
            exact hany (List.any_eq_true.mpr ⟨fc0, hfc0, beq_iff_eq.mpr heq⟩)
          refine ⟨⟨r, hsub r (List.mem_cons_self r rest), rfl, rfl⟩, ?_⟩
          intro r' hr' hk
          have hr'in : r' ∈ r :: rest := hcover r' hr'
            (fun fc0 hfc0 => by
              rw [hk]
              exact hnone fc0 hfc0)
          rcases List.mem_cons.mp hr'in with h | hmemr
          · rw [h]
          · exact hhead r' hmemr
    have hkeyE : ∃ fc ∈ ensureEntry deps skel acc r,
        fc.filePath = hitKey r := by
      unfold ensureEntry
      by_cases hany : acc.any (fun fc => fc.filePath == hitKey r) = true
      · rw [if_pos hany]
        rcases List.any_eq_true.mp hany with ⟨fc0, h0, hb⟩
        exact ⟨fc0, h0, beq_iff_eq.mp hb⟩
      · rw [if_neg hany]
        exact ⟨_, List.mem_append_right _ (List.mem_singleton.mpr rfl), rfl⟩
    have haccSub : ∀ fc ∈ acc, fc ∈ ensureEntry deps skel acc r := by
      intro fc hfc
      unfold ensureEntry
      by_cases hany : acc.any (fun fc => fc.filePath == hitKey r) = true
      · rw [if_pos hany]
        exact hfc
      · rw [if_neg hany]
        exact List.mem_append_left _ hfc
    have hgood : ∀ fc ∈ pushChunk (ensureEntry deps skel acc r) (hitKey r)
        r.chunk, MaxRelIn out fc := by
      intro fc hfc
      obtain ⟨fc0, h0, hq0⟩ := (pushChunk_pair_mem _ _ _ _).mp ⟨fc, hfc, rfl⟩
      have h1 : fc0.filePath = fc.filePath := congrArg Prod.fst hq0
      have h2 : fc0.relevance = fc.relevance := congrArg Prod.snd hq0
      have h3 := haccE fc0 h0
      constructor
      · obtain ⟨r', hr', ha, hb⟩ := h3.1
        refine ⟨r', hr', ?_, ?_⟩
        · rw [← h1]
          exact ha
        · rw [← h2]
          exact hb
      · intro r' hr' hk
        have h4 := h3.2 r' hr' (by rw [h1]; exact hk)
        rw [← h2]
        exact h4
    have hcover' : ∀ r' ∈ out,
        (∀ fc ∈ pushChunk (ensureEntry deps skel acc r) (hitKey r) r.chunk,
          fc.filePath ≠ hitKey r') → r' ∈ rest := by
      intro r' hr' hnot
      have hnotAcc : ∀ fc ∈ acc, fc.filePath ≠ hitKey r' := by
        intro fc hfc heq
        obtain ⟨fc1, h1, hq1⟩ := (pushChunk_pair_mem _ _ _ _).mpr
          ⟨fc, haccSub fc hfc, rfl⟩
        have hfst : fc1.filePath = fc.filePath := (Prod.ext_iff.mp hq1).1
        exact hnot fc1 h1 (by rw [hfst]; exact heq)
      have hr'in : r' ∈ r :: rest := hcover r' hr' hnotAcc
      rcases List.mem_cons.mp hr'in with h | hmemr
      · obtain ⟨fcK, hK, hpK⟩ := hkeyE
        obtain ⟨fc1, h1, hq1⟩ := (pushChunk_pair_mem _ _ _ _).mpr
          ⟨fcK, hK, rfl⟩
        have hfst : fc1.filePath = fcK.filePath := (Prod.ext_iff.mp hq1).1
        have hfc1 : fc1.filePath = hitKey r := by
          rw [hfst]
          exact hpK
        exact absurd (show fc1.filePath = hitKey r' by rw [h]; exact hfc1)
          (hnot fc1 h1)
      · exact hmemr
    exact ih (pushChunk (ensureEntry deps skel acc r) (hitKey r) r.chunk)
      hrest (fun r' h => hsub r' (List.mem_cons_of_mem r h)) hgood hcover'


/-- C5: every file context the report groups carries as relevance the
maximum cosine similarity over the returned hits that belong to that
file — the relevance is attained by some hit of the file and is an
upper bound of all its hits. -/
theorem contextReport_relevance (qv : List ℚ) (rows : List ChunkRow)
    (deps : String → List String) (skel : String → Option String)
    (out : List SearchResult) (fcs : List FileContext)
    (hq : query qv rows 4 = some out)
    (hc : getContextForLLM qv rows deps skel = some fcs) :
    ∀ fc ∈ fcs,
      (∃ r ∈ out, hitKey r = fc.filePath ∧ r.score = fc.relevance) ∧
      (∀ r ∈ out, hitKey r = fc.filePath → r.score ≤ fc.relevance) := by
  have hfcs : fcs = groupFiles deps skel out [] := by
    unfold getContextForLLM at hc
    rw [hq] at hc
    simpa using hc.symm
  have hsort : out.Pairwise (fun a b => b.score ≤ a.score) := by
    unfold query at hq
    cases hsr : scoreRows qv rows with
    | none =>
      rw [hsr] at hq
      simp at hq
    | some scored =>
      rw [hsr] at hq
      have hout : out = (sortHits scored).take 4 := by simpa using hq.symm
      rw [hout]
      exact List.Pairwise.sublist (List.take_sublist _ _)
        (sortHits_sorted scored)
  subst hfcs
  intro fc hfc
  exact groupFiles_max deps skel out out [] hsort (fun r h => h)
    (by simp) (fun r hr _ => hr) fc hfc

/-- A concrete stored chunk row whose vector is empty. -/
def rowB : ChunkRow :=
  { id := 7, file_path := "src/b.ts", chunk_type := ChunkType.file,
    content := "TXT", vector_json := [],
    metadata := { startLine := 1, endLine := 1 } }

/-- Witness for C5 on a one-row store: the single file context carries
the single hit's score as relevance. -/
theorem contextReport_relevance_witness :
    getContextForLLM [] [rowB] (fun _ => []) (fun _ => none) =
      some [{ filePath := "src/b.ts", relevance := 0,
              chunks := [chunkOfRow rowB], fileDeps := [],
              skeleton := none }] ∧
    ∀ fc ∈ [({ filePath := "src/b.ts", relevance := 0,
               chunks := [chunkOfRow rowB], fileDeps := [],
               skeleton := none } : FileContext)],
      (∃ r ∈ [({ score := 0, chunk := chunkOfRow rowB } : SearchResult)],
        hitKey r = fc.filePath ∧ r.score = fc.relevance) ∧
      (∀ r ∈ [({ score := 0, chunk := chunkOfRow rowB } : SearchResult)],
        hitKey r = fc.filePath → r.score ≤ fc.relevance) :=
  ⟨rfl, contextReport_relevance [] [rowB] (fun _ => []) (fun _ => none)
    [{ score := 0, chunk := chunkOfRow rowB }]
    [{ filePath := "src/b.ts", relevance := 0,
       chunks := [chunkOfRow rowB], fileDeps := [], skeleton := none }]
    rfl rfl⟩

end Agent
